import Mathlib

/-!
# pgrocks: a table access method over an ordered key-value store

A shallow embedding of `src/pgrocks.c`.

* C strings are lists of bytes without their terminator; a byte is a `Char`.
  A buffer read as a C string ends at its first NUL (`c_str`).
* The RocksDB handle `database` is a list of key/value pairs that `rocksdb_put`
  keeps in bytewise key order (the default comparator); the functions are total on
  every list, so no well-formedness hypothesis is needed by the theorems.
* A dereference of a NULL pointer (for instance `strlen(NULL)`) stops the process:
  the functions that can reach one return `Option`, with `none` for the crash.
* `int` is 32 bits and `size_t` is 64 bits; `long` is 64 bits.
* The key slice that `rocksdb_iter_key` returns carries no terminator: a read that
  ignores its length goes on into the bytes that lie behind the key in the iterator's
  buffer. These bytes are not fixed by the program; they are a parameter
  (`behind key`) of the functions that read them.
* The log stream `fd` is a global that the file never assigns: it is NULL.
  Logging through `elog` (`DEBUG_FUNC`, `DEBUG_VAR_TYPE`) and memory management are
  left out.
-/

namespace PgRocks

/-- A byte string: the content of a C string or of a RocksDB slice. -/
abbrev Bytes := List Char

/-- The string terminator. -/
def NUL : Char := Char.ofNat 0

/-- The contents of the database: key/value pairs, kept in key order by `rocksdb_put`. -/
abbrev Store := List (Bytes × Bytes)

/-- The reserved catalog key: `#define TABLES_KEY "tables"`. -/
def TABLES_KEY : Bytes := ['t', 'a', 'b', 'l', 'e', 's']

/-! ## The key-value store -/

/-- The order of RocksDB's default bytewise comparator: the first differing byte decides,
and a proper prefix sorts first. -/
def bytewise_lt : Bytes → Bytes → Bool
  | [], [] => false
  | [], _ :: _ => true
  | _ :: _, [] => false
  | a :: as, b :: bs => if a < b then true else if b < a then false else bytewise_lt as bs

/-- The call `rocksdb_put(database, _, key, keylen, val, vallen, _)`: insert or overwrite. -/
def rocksdb_put : Store → Bytes → Bytes → Store
  | [], key, val => [(key, val)]
  | (k, v) :: rest, key, val =>
    if bytewise_lt key k then (key, val) :: (k, v) :: rest
    else if key = k then (key, val) :: rest
    else (k, v) :: rocksdb_put rest key val

/-- The call `rocksdb_get(database, _, key, keylen, &len, _)`: the value buffer, or NULL
(`none`) when the key is absent. -/
def rocksdb_get : Store → Bytes → Option Bytes
  | [], _ => none
  | (k, v) :: rest, key => if key = k then some v else rocksdb_get rest key

/-- The call `rocksdb_iter_seek(iter, target, _)` followed by `rocksdb_iter_next` until the
iterator is invalid: the entries from the first key not below `target` to the end. -/
def rocksdb_iter_seek (db : Store) (target : Bytes) : Store :=
  db.dropWhile (fun kv => bytewise_lt kv.1 target)

/-- The keys present in the store. -/
def store_keys (db : Store) : List Bytes := db.map Prod.fst

/-! ## C library functions -/

/-- A buffer read as a C string: the bytes before the first NUL; `none` when the buffer
holds no NUL (the read would run past the buffer). -/
def c_str (buf : Bytes) : Option Bytes :=
  if NUL ∈ buf then some (buf.takeWhile (fun c => c ≠ NUL)) else none

/-- The `%zu` conversion with `fuel` digits at most: unpadded decimal. -/
def fmt_zu_fuel : Nat → Nat → Bytes
  | 0, _ => []
  | fuel + 1, n =>
    if n < 10 then [Nat.digitChar n]
    else fmt_zu_fuel fuel (n / 10) ++ [Nat.digitChar (n % 10)]

/-- The `%zu` conversion of `printf`: the unpadded decimal digits of `n`. -/
def fmt_zu (n : Nat) : Bytes := fmt_zu_fuel (n + 1) n

/-- The C function `isspace` in the C locale. -/
def isspace (c : Char) : Bool :=
  c = ' ' || c = '\t' || c = '\n' || c = Char.ofNat 11 || c = Char.ofNat 12 || c = '\r'

/-- The value of a digit byte. -/
def digit_val (c : Char) : Nat := c.toNat - 48

/-- The number denoted by a run of decimal digits, most significant first. -/
def digits_val (ds : Bytes) : Nat := ds.foldl (fun acc c => acc * 10 + digit_val c) 0

/-- The result of `strtol` saturates at the bounds of `long`. -/
def clamp_long (n : Int) : Int :=
  if n > 2 ^ 63 - 1 then 2 ^ 63 - 1 else if n < -(2 ^ 63) then -(2 ^ 63) else n

/-- Conversion to the 32-bit `int`: reduction modulo `2 ^ 32` into `[-2 ^ 31, 2 ^ 31)`. -/
def to_int (n : Int) : Int := (n + 2 ^ 31) % 2 ^ 32 - 2 ^ 31

/-- Conversion of an `int` to the 64-bit `size_t`: reduction modulo `2 ^ 64`. -/
def to_size_t (n : Int) : Nat := (n % 2 ^ 64).toNat

/-- The optional sign of a `%d` conversion: whether it is '-', and the input after it. -/
def scan_sign : Bytes → Bool × Bytes
  | [] => (false, [])
  | c :: r => if c = '-' then (true, r) else if c = '+' then (false, r) else (false, c :: r)

/-- The call `sscanf(s, "%d", &out) == 1` on the bytes `s` that lie at the pointer:
`some out` when the conversion succeeds. The input ends at the first NUL; leading white
space is skipped, one sign is accepted, and at least one digit is required. The digits
are converted as by `strtol` and the result is stored in an `int`. -/
def sscanf_d (s : Bytes) : Option Int :=
  let s := s.takeWhile (fun c => c ≠ NUL)
  let s := s.dropWhile isspace
  let signed := scan_sign s
  let ds := signed.2.takeWhile Char.isDigit
  if ds = [] then none
  else
    let n : Int := (digits_val ds : Nat)
    some (to_int (clamp_long (if signed.1 then -n else n)))

/-! ## Row keys and row ids -/

/-- The key built in `add_row`: `psprintf("%s#%zu", table_name, row)`. -/
def row_key (table_name : Bytes) (row : Nat) : Bytes :=
  table_name ++ '#' :: fmt_zu row

/-- The function `add_row`. The argument `data` is a pointer that may be NULL (`none`);
`strlen(data)` is evaluated before the put, so a NULL `data` stops the process. -/
def add_row (db : Store) (table_name : Bytes) (row : Nat) (data : Option Bytes) :
    Option Store :=
  match data with
  | none => none
  | some d => some (rocksdb_put db (row_key table_name row) d)

/-- The prefix built in `get_max_row_num`: `psprintf("%s#", table_name)`. -/
def row_pfx (table_name : Bytes) : Bytes := table_name ++ ['#']

/-- The bytes that lie behind each key slice in the iterator's buffer when
`rocksdb_iter_key` returns it. -/
abbrev Behind := Bytes → Bytes

/-- The body of the loop of `get_max_row_num` for one key. The length `len` of the key
enters the test only: `sscanf` gets the pointer `key + prefix_len` and reads the rest
of the key and then the bytes behind it. -/
def max_row_step (behind : Behind) (pfx : Bytes) (max_row_num : Int) (key : Bytes) : Int :=
  if key.length > pfx.length ∧ key.take pfx.length = pfx then
    match sscanf_d (key.drop pfx.length ++ behind key) with
    | some current_row_num =>
      if current_row_num > max_row_num then current_row_num else max_row_num
    | none => max_row_num
  else max_row_num

/-- The row number that one key contributes to `get_max_row_num`: what the loop body
makes of the initial value -1. -/
def key_row_num (behind : Behind) (pfx : Bytes) (key : Bytes) : Int :=
  max_row_step behind pfx (-1) key

/-- The function `get_max_row_num`: the loop runs from the seek position to the last key
of the database. -/
def get_max_row_num (behind : Behind) (db : Store) (table_name : Bytes) : Int :=
  (rocksdb_iter_seek db (row_pfx table_name)).foldl
    (fun max_row_num kv => max_row_step behind (row_pfx table_name) max_row_num kv.1) (-1)

/-! ## The catalog -/

/-- The function `get_tables`: the value buffer stored under `TABLES_KEY`, or NULL. -/
def get_tables (db : Store) : Option Bytes := rocksdb_get db TABLES_KEY

/-- The function `set_tables`: the value written has `strlen(tables) + 1` bytes, the
terminator included. -/
def set_tables (db : Store) (tables : Bytes) : Store :=
  rocksdb_put db TABLES_KEY (tables ++ [NUL])

/-- The function `memam_relation_set_new_filelocator` for a relation named
`new_table_name` (allocation is taken to succeed). `strlen(tables)` reads the buffer
returned by `get_tables` as a C string and stops the process on NULL. -/
def memam_relation_set_new_filelocator (db : Store) (new_table_name : Bytes) :
    Option Store :=
  match get_tables db with
  | none => none
  | some buf =>
    match c_str buf with
    | none => none
    | some tables => some (set_tables db (tables ++ [','] ++ new_table_name))

/-- The global `FILE* fd`: defined without an initialiser and assigned nowhere in the
file, so it is NULL (`none`) whenever it is read. -/
def fd : Option Unit := none

/-- The function `mem_tableam_handler`. Its first statement is `fprintf(fd, ...)`: with
`fd` NULL the process stops there (`none`). Past it, when the global `database` is
NULL the store at `DBPath` (contents `disk`) is opened and the catalog is reset by
`set_tables("")`; the result is the store behind `database` after the call. -/
def mem_tableam_handler (database : Option Store) (disk : Store) : Option Store :=
  match fd with
  | none => none
  | some _ =>
    match database with
    | some db => some db
    | none => some (set_tables disk [])

/-- The table-creation callback run for each name of a list, in order. -/
def create_tables : Store → List Bytes → Option Store
  | db, [] => some db
  | db, name :: names =>
    match memam_relation_set_new_filelocator db name with
    | none => none
    | some db1 => create_tables db1 names

/-- The catalog listing as a caller of `get_tables` reads it: a C string. -/
def tables_listing (db : Store) : Option Bytes :=
  match get_tables db with
  | none => none
  | some buf => c_str buf

/-- The entries of a comma-separated listing. -/
def split_commas : Bytes → List Bytes
  | [] => [[]]
  | c :: cs =>
    if c = ',' then [] :: split_commas cs
    else
      match split_commas cs with
      | [] => [[c]]
      | e :: es => (c :: e) :: es

/-! ## The insert path -/

/-- The text appended for one attribute in `memam_tuple_insert`: `"NULL"` for a null
attribute, else the output of the type's output function (`datumToString`). -/
def attr_text : Option Bytes → Bytes
  | none => ['N', 'U', 'L', 'L']
  | some valStr => valStr

/-- The string `str` built by the loop of `memam_tuple_insert`: a ',' follows every
attribute but the last. -/
def tuple_str : List (Option Bytes) → Bytes
  | [] => []
  | [v] => attr_text v
  | v :: w :: rest => attr_text v ++ ',' :: tuple_str (w :: rest)

/-- The second argument of the call of `add_row` in `memam_tuple_insert`:
`current_max_row_num+1`, an `int` (the addition wraps at 32 bits), converted to
`size_t`. -/
def next_row_num (behind : Behind) (db : Store) (table_name : Bytes) : Nat :=
  to_size_t (to_int (get_max_row_num behind db table_name + 1))

/-- The arguments of the one call of `add_row` in `memam_tuple_insert`, for the relation
`table_name` and the attribute values of `slot`: the table name,
`current_max_row_num+1`, and `combined`. The string `str` is built and logged, but
`combined` is still NULL at the call. -/
def memam_tuple_insert_call (behind : Behind) (db : Store) (table_name : Bytes)
    (slot : List (Option Bytes)) : Bytes × Nat × Option Bytes :=
  let _str : Bytes := tuple_str slot
  let combined : Option Bytes := none
  (table_name, next_row_num behind db table_name, combined)

/-- The function `memam_tuple_insert`: it ends with its call of `add_row`. -/
def memam_tuple_insert (behind : Behind) (db : Store) (table_name : Bytes)
    (slot : List (Option Bytes)) : Option Store :=
  add_row db (memam_tuple_insert_call behind db table_name slot).1
    (memam_tuple_insert_call behind db table_name slot).2.1
    (memam_tuple_insert_call behind db table_name slot).2.2

/-- The insert path run for each tuple of a list, in order. -/
def insert_rows (behind : Behind) : Store → Bytes → List (List (Option Bytes)) → Option Store
  | db, _, [] => some db
  | db, table_name, slot :: slots =>
    match memam_tuple_insert behind db table_name slot with
    | none => none
    | some db1 => insert_rows behind db1 table_name slots

/-! ## The scan path -/

/-- The C struct `Column`. -/
structure Column where
  value : Int
  deriving DecidableEq

/-- The C struct `Row`. -/
structure Row where
  columns : List Column
  deriving DecidableEq

/-- The C struct `Table`. -/
structure Table where
  name : Bytes
  rows : List Row
  nrows : Nat
  deriving DecidableEq

/-- The C struct `MemScanDesc`: the relation (its name) and the cursor. -/
structure MemScanDesc where
  rs_rd : Bytes
  cursor : Nat
  deriving DecidableEq

/-- The function `get_table_data`: the value stored under the bare table name. -/
def get_table_data (db : Store) (table_name : Bytes) : Option Bytes :=
  rocksdb_get db table_name

/-- The function `get_table`: it calls `get_table_data`, drops the result, and leaves
the caller's `table` pointer as it was. -/
def get_table (db : Store) (table : Option Table) (relation : Bytes) : Option Table :=
  let _data := get_table_data db relation
  table

/-- The function `memam_beginscan`. -/
def memam_beginscan (relation : Bytes) : MemScanDesc :=
  { rs_rd := relation, cursor := 0 }

/-- The function `memam_getnextslot`: whether a row was produced, the scan state after
the call, and the value stored in the slot. -/
def memam_getnextslot (db : Store) (mscan : MemScanDesc) :
    Bool × MemScanDesc × Option Int :=
  let table : Option Table := get_table db none mscan.rs_rd
  match table with
  | none => (false, mscan, none)
  | some t =>
    if mscan.cursor = t.nrows then (false, mscan, none)
    else
      match t.rows.get? mscan.cursor with
      | none => (false, mscan, none)
      | some r =>
        match r.columns.head? with
        | none => (false, mscan, none)
        | some col => (true, { mscan with cursor := (mscan.cursor + 1) % 2 ^ 32 }, some col.value)

/-- The calls of `memam_getnextslot` of one scan, repeated until one returns false (at
most `fuel` calls); the values produced. -/
def scan_loop (db : Store) : Nat → MemScanDesc → List Int
  | 0, _ => []
  | fuel + 1, mscan =>
    match memam_getnextslot db mscan with
    | (true, mscan1, some v) => v :: scan_loop db fuel mscan1
    | _ => []

/-- A whole scan of a relation: `memam_beginscan`, then `memam_getnextslot` until it
returns false. -/
def scan_all (db : Store) (relation : Bytes) (fuel : Nat) : List Int :=
  scan_loop db fuel (memam_beginscan relation)

/-! ## Predicates used in the statements -/

/-- Every byte of a table name is above '#'. -/
def above_hash (t : Bytes) : Prop := ∀ c ∈ t, '#' < c

/-- A table name the catalog can list: a C string (no NUL) without a comma. -/
def listable (name : Bytes) : Prop := ',' ∉ name ∧ NUL ∉ name

/-- The attribute values the row encoding keeps apart: no text holds a ',' and no text
is the literal `NULL`. -/
def encodable (slot : List (Option Bytes)) : Prop :=
  ∀ valStr, some valStr ∈ slot → ',' ∉ valStr ∧ valStr ≠ ['N', 'U', 'L', 'L']

/-- The catalog listing after the names of a list were appended to it in order. -/
def appended_listing (tables : Bytes) (names : List Bytes) : Bytes :=
  names.foldl (fun acc name => acc ++ [','] ++ name) tables

/-- The keys of a store are strictly ascending in bytewise order. -/
def ascending : Store → Prop
  | [] => True
  | [_] => True
  | a :: b :: rest => bytewise_lt a.1 b.1 = true ∧ ascending (b :: rest)

/-- The catalog listing that holds the names of a list: each name comes after a ','. -/
def listing_of : List Bytes → Bytes
  | [] => []
  | name :: names => ',' :: name ++ listing_of names

/-- No digit lies right behind a key slice: a `%d` conversion that runs through the
key ends at the end of the key. -/
def terminated (behind : Behind) : Prop :=
  ∀ key, ∀ c ∈ (behind key).head?, c.isDigit = false

/-- The call of `add_row` in `memam_tuple_insert`, given a non-NULL `data`, run for each
element of a list in order. -/
def add_rows (behind : Behind) : Store → Bytes → List Bytes → Option Store
  | db, _, [] => some db
  | db, table_name, data :: datas =>
    match add_row db table_name (next_row_num behind db table_name) (some data) with
    | none => none
    | some db1 => add_rows behind db1 table_name datas

/-! ## Sample inputs -/

/-- The table name `orders`. -/
def orders : Bytes := ['o', 'r', 'd', 'e', 'r', 's']

/-- The table name `users`. -/
def users : Bytes := ['u', 's', 'e', 'r', 's']

/-- A freshly initialised store: what `set_tables("")` leaves over an empty database.
Only the catalog key is present, and it holds the empty listing. -/
def fresh_store : Store := set_tables [] []

/-- An iterator buffer in which every key slice is followed by a NUL. -/
def no_overread : Behind := fun _ => []

/-- The table name `t`. -/
def table_t : Bytes := ['t']

/-- The key of row 0 of the table named `t#!8000000000`. -/
def long_key : Bytes := row_key ['t', '#', '!', '8', '0', '0', '0', '0', '0', '0', '0', '0', '0'] 0

/-- A store that holds row 0 of the table `t#!8000000000` and row 0 of the table `t`. -/
def clash_store : Store := [(long_key, ['x']), (row_key table_t 0, ['y'])]

/-- An iterator buffer that is reused from key to key: behind the slice of the key
`t#0` lie the bytes that the key visited before it, `long_key`, left there. -/
def reused_buffer : Behind := fun key =>
  if key = row_key table_t 0 then long_key.drop key.length else []

/-- A store that holds the rows 0 and 1 of `orders`, next to the catalog. -/
def sample_store : Store :=
  [(row_key orders 0, ['4', '2']), (row_key orders 1, ['7']), (TABLES_KEY, [NUL])]

/-! ## The bytewise order -/

theorem bytewise_lt_irrefl (a : Bytes) : bytewise_lt a a = false := by
  induction a with
  | nil => rfl
  | cons x xs ih => simp [bytewise_lt, ih]

theorem bytewise_lt_asymm : ∀ a b : Bytes, bytewise_lt a b = true → bytewise_lt b a = false
  | [], [], h => by simp [bytewise_lt] at h
  | [], _ :: _, _ => by simp [bytewise_lt]
  | _ :: _, [], h => by simp [bytewise_lt] at h
  | x :: xs, y :: ys, h => by
    simp only [bytewise_lt] at h ⊢
    by_cases hxy : x < y
    · have hyx : ¬ y < x := lt_asymm hxy
      simp [hxy, hyx]
    · by_cases hyx : y < x
      · simp [hxy, hyx] at h
      · simp only [hxy, hyx, if_false] at h ⊢
        exact bytewise_lt_asymm xs ys h

theorem bytewise_lt_total : ∀ a b : Bytes, a ≠ b → bytewise_lt a b = true ∨ bytewise_lt b a = true
  | [], [], h => absurd rfl h
  | [], _ :: _, _ => by simp [bytewise_lt]
  | _ :: _, [], _ => by simp [bytewise_lt]
  | x :: xs, y :: ys, h => by
    simp only [bytewise_lt]
    by_cases hxy : x < y
    · simp [hxy]
    · by_cases hyx : y < x
      · simp [hyx]
      · have hxy2 : x = y := le_antisymm (not_lt.mp hyx) (not_lt.mp hxy)
        subst hxy2
        simp only [hxy, if_false]
        exact bytewise_lt_total xs ys (fun e => h (by rw [e]))

theorem bytewise_lt_append_left (p a b : Bytes) :
    bytewise_lt (p ++ a) (p ++ b) = bytewise_lt a b := by
  induction p with
  | nil => rfl
  | cons x xs ih => simp [bytewise_lt, ih]

/-- A key that starts with `p` is not below `p`. -/
theorem bytewise_lt_of_take (p key : Bytes) (h : key.take p.length = p) :
    bytewise_lt key p = false := by
  have hk : key = p ++ key.drop p.length := by
    conv_lhs => rw [← List.take_append_drop p.length key, h]
  rw [hk]
  have := bytewise_lt_append_left p (key.drop p.length) []
  rw [List.append_nil] at this
  rw [this]
  cases key.drop p.length <;> rfl

/-! ## The store -/

theorem mem_store_keys_put (db : Store) (key val k : Bytes) :
    k ∈ store_keys (rocksdb_put db key val) ↔ k = key ∨ k ∈ store_keys db := by
  induction db with
  | nil => simp [rocksdb_put, store_keys]
  | cons kv rest ih =>
    obtain ⟨k1, v1⟩ := kv
    simp only [rocksdb_put]
    by_cases h1 : bytewise_lt key k1 = true
    · simp [h1, store_keys]
    · by_cases h2 : key = k1
      · subst h2
        simp [h1, store_keys]
      · simp only [h1, h2, if_false, Bool.false_eq_true]
        simp only [store_keys, List.map_cons, List.mem_cons] at ih ⊢
        rw [ih]
        tauto

theorem rocksdb_get_put_same (db : Store) (key val : Bytes) :
    rocksdb_get (rocksdb_put db key val) key = some val := by
  induction db with
  | nil => simp [rocksdb_put, rocksdb_get]
  | cons kv rest ih =>
    obtain ⟨k1, v1⟩ := kv
    simp only [rocksdb_put]
    by_cases h1 : bytewise_lt key k1 = true
    · simp [h1, rocksdb_get]
    · by_cases h2 : key = k1
      · subst h2
        simp [h1, rocksdb_get]
      · simp [h1, h2, rocksdb_get, ih]

theorem rocksdb_get_put_other (db : Store) (key val k : Bytes) (hk : k ≠ key) :
    rocksdb_get (rocksdb_put db key val) k = rocksdb_get db k := by
  induction db with
  | nil => simp [rocksdb_put, rocksdb_get, hk]
  | cons kv rest ih =>
    obtain ⟨k1, v1⟩ := kv
    simp only [rocksdb_put]
    by_cases h1 : bytewise_lt key k1 = true
    · simp [h1, rocksdb_get, hk]
    · by_cases h2 : key = k1
      · subst h2
        simp [h1, rocksdb_get, hk]
      · simp [h1, h2, rocksdb_get, ih]

/-- The store stays ordered under `rocksdb_put`. -/
theorem rocksdb_put_ascending (db : Store) (key val : Bytes) (h : ascending db) :
    ascending (rocksdb_put db key val) := by
  induction db with
  | nil => simp [rocksdb_put, ascending]
  | cons kv rest ih =>
    obtain ⟨k1, v1⟩ := kv
    simp only [rocksdb_put]
    by_cases h1 : bytewise_lt key k1 = true
    · simp only [h1, if_true]
      exact ⟨h1, h⟩
    · by_cases h2 : key = k1
      · subst h2
        simp only [h1, if_true, Bool.false_eq_true, if_false]
        cases rest with
        | nil => simp [ascending]
        | cons kv2 rest2 => exact h
      · simp only [h1, h2, if_false, Bool.false_eq_true]
        have hlt : bytewise_lt k1 key = true := by
          rcases bytewise_lt_total key k1 h2 with c | c
          · exact absurd c h1
          · exact c
        cases rest with
        | nil => simp [rocksdb_put, ascending, hlt]
        | cons kv2 rest2 =>
          obtain ⟨k2, v2⟩ := kv2
          have hrest : ascending ((k2, v2) :: rest2) := h.2
          have ih2 := ih hrest
          simp only [rocksdb_put] at ih2 ⊢
          by_cases h3 : bytewise_lt key k2 = true
          · simp only [h3, if_true] at ih2 ⊢
            exact ⟨hlt, ih2⟩
          · by_cases h4 : key = k2
            · subst h4
              simp only [h3, if_true, Bool.false_eq_true, if_false] at ih2 ⊢
              exact ⟨hlt, ih2⟩
            · simp only [h3, h4, if_false, Bool.false_eq_true] at ih2 ⊢
              exact ⟨h.1, ih2⟩

theorem mem_store_keys_of_get (db : Store) (k v : Bytes) (h : rocksdb_get db k = some v) :
    k ∈ store_keys db := by
  induction db with
  | nil => simp [rocksdb_get] at h
  | cons kv rest ih =>
    obtain ⟨k1, v1⟩ := kv
    simp only [rocksdb_get] at h
    by_cases h2 : k = k1
    · simp [store_keys, h2]
    · simp only [h2, if_false] at h
      have := ih h
      simp only [store_keys, List.map_cons, List.mem_cons] at this ⊢
      exact Or.inr this

/-! ## Decimal output and input -/

theorem digitChar_isDigit : ∀ d : Fin 10, (Nat.digitChar d.val).isDigit = true := by decide

theorem digit_val_digitChar : ∀ d : Fin 10, digit_val (Nat.digitChar d.val) = d.val := by decide

theorem digits_val_snoc (ds : Bytes) (c : Char) :
    digits_val (ds ++ [c]) = digits_val ds * 10 + digit_val c := by
  simp [digits_val, List.foldl_append]

theorem fmt_zu_fuel_isDigit : ∀ fuel n : Nat, n < fuel →
    ∀ c ∈ fmt_zu_fuel fuel n, c.isDigit = true
  | 0, _, h => absurd h (Nat.not_lt_zero _)
  | fuel + 1, n, h => by
    intro c hc
    simp only [fmt_zu_fuel] at hc
    by_cases h10 : n < 10
    · simp only [h10, if_true, List.mem_singleton] at hc
      subst hc
      exact digitChar_isDigit ⟨n, h10⟩
    · simp only [h10, if_false, List.mem_append, List.mem_singleton] at hc
      rcases hc with hc | hc
      · exact fmt_zu_fuel_isDigit fuel (n / 10) (by omega) c hc
      · subst hc
        exact digitChar_isDigit ⟨n % 10, Nat.mod_lt _ (by decide)⟩

theorem fmt_zu_fuel_ne_nil : ∀ fuel n : Nat, n < fuel → fmt_zu_fuel fuel n ≠ []
  | 0, _, h => absurd h (Nat.not_lt_zero _)
  | fuel + 1, n, _ => by
    simp only [fmt_zu_fuel]
    by_cases h10 : n < 10 <;> simp [h10]

theorem digits_val_fmt_zu_fuel : ∀ fuel n : Nat, n < fuel →
    digits_val (fmt_zu_fuel fuel n) = n
  | 0, _, h => absurd h (Nat.not_lt_zero _)
  | fuel + 1, n, h => by
    simp only [fmt_zu_fuel]
    by_cases h10 : n < 10
    · simp only [h10, if_true]
      have := digit_val_digitChar ⟨n, h10⟩
      simpa [digits_val] using this
    · simp only [h10, if_false]
      rw [digits_val_snoc, digits_val_fmt_zu_fuel fuel (n / 10) (by omega)]
      have := digit_val_digitChar ⟨n % 10, Nat.mod_lt _ (by decide)⟩
      simp only at this
      rw [this]
      omega

theorem fmt_zu_isDigit (n : Nat) : ∀ c ∈ fmt_zu n, c.isDigit = true :=
  fmt_zu_fuel_isDigit (n + 1) n (Nat.lt_succ_self n)

theorem fmt_zu_ne_nil (n : Nat) : fmt_zu n ≠ [] :=
  fmt_zu_fuel_ne_nil (n + 1) n (Nat.lt_succ_self n)

theorem digits_val_fmt_zu (n : Nat) : digits_val (fmt_zu n) = n :=
  digits_val_fmt_zu_fuel (n + 1) n (Nat.lt_succ_self n)

theorem fmt_zu_injective (i j : Nat) (h : fmt_zu i = fmt_zu j) : i = j := by
  rw [← digits_val_fmt_zu i, ← digits_val_fmt_zu j, h]

theorem isDigit_ne_hash (c : Char) (h : c.isDigit = true) : c ≠ '#' := by
  intro e; subst e; revert h; decide

theorem isDigit_ne_NUL (c : Char) (h : c.isDigit = true) : c ≠ NUL := by
  intro e; subst e; revert h; decide

theorem isDigit_not_isspace (c : Char) (h : c.isDigit = true) : isspace c = false := by
  have h1 : 48 ≤ c.toNat := by
    simp only [Char.isDigit, Bool.and_eq_true, decide_eq_true_eq] at h
    exact h.1
  cases hs : isspace c
  · rfl
  · exfalso
    simp only [isspace, Bool.or_eq_true, decide_eq_true_eq] at hs
    rcases hs with ((((hs | hs) | hs) | hs) | hs) | hs <;> (subst hs; revert h1; decide)

theorem hash_not_mem_fmt_zu (n : Nat) : '#' ∉ fmt_zu n :=
  fun h => isDigit_ne_hash _ (fmt_zu_isDigit n _ h) rfl

theorem scan_sign_of_isDigit (c : Char) (r : Bytes) (h : c.isDigit = true) :
    scan_sign (c :: r) = (false, c :: r) := by
  have h1 : c ≠ '-' := by intro e; subst e; revert h; decide
  have h2 : c ≠ '+' := by intro e; subst e; revert h; decide
  simp [scan_sign, h1, h2]

theorem to_int_clamp_long_of_lt (n : Nat) (h : n < 2 ^ 31) :
    to_int (clamp_long (n : Int)) = n := by
  have h0 : (2 : Nat) ^ 31 = 2147483648 := by norm_num
  rw [h0] at h
  have e1 : ((2 : Int) ^ 63) = 9223372036854775808 := by norm_num
  have e2 : ((2 : Int) ^ 31) = 2147483648 := by norm_num
  have e3 : ((2 : Int) ^ 32) = 4294967296 := by norm_num
  simp only [to_int, clamp_long, e1, e2, e3]
  split_ifs <;> omega

/-- What `sscanf` makes of a run of digits that fills the whole input. -/
theorem sscanf_d_digits (ds : Bytes) (hne : ds ≠ []) (hd : ∀ c ∈ ds, c.isDigit = true) :
    sscanf_d ds = some (to_int (clamp_long (digits_val ds : Nat))) := by
  obtain ⟨c, r, rfl⟩ := List.exists_cons_of_ne_nil hne
  have hc : c.isDigit = true := hd c (List.mem_cons_self _ _)
  have t1 : (c :: r).takeWhile (fun c => decide (c ≠ NUL)) = c :: r := by
    rw [List.takeWhile_eq_self_iff]
    intro x hx
    exact decide_eq_true (isDigit_ne_NUL x (hd x hx))
  have t2 : (c :: r).dropWhile isspace = c :: r := by
    rw [List.dropWhile_cons_of_neg]
    simp [isDigit_not_isspace c hc]
  have t3 : (c :: r).takeWhile Char.isDigit = c :: r := by
    rw [List.takeWhile_eq_self_iff]
    exact hd
  simp only [sscanf_d, t1, t2, scan_sign_of_isDigit c r hc, t3]
  simp

theorem takeWhile_isDigit_of_head (rest : Bytes) (h : ∀ c ∈ rest.head?, c.isDigit = false) :
    rest.takeWhile Char.isDigit = [] := by
  cases rest with
  | nil => rfl
  | cons c r =>
    have hc : c.isDigit = false := h c (by simp)
    simp [List.takeWhile, hc]

/-- What `sscanf` makes of a run of digits followed by bytes that do not go on with a
digit. -/
theorem sscanf_d_digits_then (ds rest : Bytes) (hne : ds ≠ [])
    (hd : ∀ c ∈ ds, c.isDigit = true) (hrest : ∀ c ∈ rest.head?, c.isDigit = false) :
    sscanf_d (ds ++ rest) = some (to_int (clamp_long (digits_val ds : Nat))) := by
  obtain ⟨c, r, rfl⟩ := List.exists_cons_of_ne_nil hne
  have hc : c.isDigit = true := hd c (List.mem_cons_self _ _)
  have hr1 : ∀ x ∈ (rest.takeWhile (fun c => decide (c ≠ NUL))).head?, x.isDigit = false := by
    intro x hx
    apply hrest x
    cases rest with
    | nil => simp at hx
    | cons y ys =>
      by_cases hy : y ≠ NUL
      · rw [List.takeWhile_cons_of_pos (by simpa using hy)] at hx
        simpa using hx
      · rw [List.takeWhile_cons_of_neg (by simpa using hy)] at hx
        simp at hx
  have t1 : (c :: r ++ rest).takeWhile (fun c => decide (c ≠ NUL))
      = c :: r ++ rest.takeWhile (fun c => decide (c ≠ NUL)) := by
    rw [List.takeWhile_append_of_pos]
    intro x hx
    exact decide_eq_true (isDigit_ne_NUL x (hd x hx))
  have t2 : (c :: r ++ rest.takeWhile (fun c => decide (c ≠ NUL))).dropWhile isspace
      = c :: r ++ rest.takeWhile (fun c => decide (c ≠ NUL)) := by
    rw [List.cons_append, List.dropWhile_cons_of_neg]
    simp [isDigit_not_isspace c hc]
  have t3 : (c :: (r ++ rest.takeWhile (fun c => decide (c ≠ NUL)))).takeWhile Char.isDigit
      = c :: r := by
    rw [← List.cons_append, List.takeWhile_append_of_pos hd, takeWhile_isDigit_of_head _ hr1,
      List.append_nil]
  simp only [sscanf_d, t1, t2]
  rw [List.cons_append, scan_sign_of_isDigit c _ hc]
  simp only [t3]
  simp

theorem sscanf_d_fmt_zu (n : Nat) (h : n < 2 ^ 31) (rest : Bytes)
    (hrest : ∀ c ∈ rest.head?, c.isDigit = false) :
    sscanf_d (fmt_zu n ++ rest) = some (n : Int) := by
  rw [sscanf_d_digits_then (fmt_zu n) rest (fmt_zu_ne_nil n) (fmt_zu_isDigit n) hrest,
    digits_val_fmt_zu, to_int_clamp_long_of_lt n h]

/-! ## The maximum row number -/

theorem key_row_num_ge (behind : Behind) (pfx key : Bytes) : -1 ≤ key_row_num behind pfx key := by
  unfold key_row_num max_row_step
  split_ifs with h
  · cases sscanf_d (key.drop pfx.length ++ behind key) with
    | none => simp
    | some cur =>
      simp only
      split_ifs <;> omega
  · simp

theorem max_row_step_eq (behind : Behind) (pfx key : Bytes) (m : Int) (hm : -1 ≤ m) :
    max_row_step behind pfx m key = max m (key_row_num behind pfx key) := by
  unfold key_row_num max_row_step
  split_ifs with h
  · cases sscanf_d (key.drop pfx.length ++ behind key) with
    | none => simp [hm]
    | some cur =>
      simp only
      rw [max_def]
      split_ifs <;> omega
  · simp [hm]

theorem key_row_num_of_lt (behind : Behind) (pfx key : Bytes) (h : bytewise_lt key pfx = true) :
    key_row_num behind pfx key = -1 := by
  unfold key_row_num max_row_step
  have : ¬ (key.length > pfx.length ∧ key.take pfx.length = pfx) := by
    rintro ⟨_, h2⟩
    rw [bytewise_lt_of_take pfx key h2] at h
    exact Bool.false_ne_true h
  simp [this]

/-- The loop of `get_max_row_num` over a list of keys. -/
theorem foldl_step_eq_keys (behind : Behind) (pfx : Bytes) (db : Store) (m : Int) :
    db.foldl (fun max_row_num kv => max_row_step behind pfx max_row_num kv.1) m
      = (store_keys db).foldl (max_row_step behind pfx) m := by
  simp [store_keys, List.foldl_map]

theorem foldl_step_ge (behind : Behind) (pfx : Bytes) (ks : List Bytes) (m : Int) (hm : -1 ≤ m) :
    m ≤ ks.foldl (max_row_step behind pfx) m := by
  induction ks generalizing m with
  | nil => simp
  | cons k ks ih =>
    simp only [List.foldl_cons]
    have h1 : max_row_step behind pfx m k = max m (key_row_num behind pfx k) := max_row_step_eq behind pfx k m hm
    have h2 : m ≤ max_row_step behind pfx m k := by rw [h1]; exact le_max_left _ _
    exact le_trans h2 (ih _ (le_trans hm h2))

theorem foldl_step_upper (behind : Behind) (pfx : Bytes) (ks : List Bytes) (m : Int) (hm : -1 ≤ m) (k : Bytes)
    (hk : k ∈ ks) : key_row_num behind pfx k ≤ ks.foldl (max_row_step behind pfx) m := by
  induction ks generalizing m with
  | nil => simp at hk
  | cons k1 ks ih =>
    simp only [List.foldl_cons]
    have h1 : max_row_step behind pfx m k1 = max m (key_row_num behind pfx k1) := max_row_step_eq behind pfx k1 m hm
    have h2 : m ≤ max_row_step behind pfx m k1 := by rw [h1]; exact le_max_left _ _
    rcases List.mem_cons.mp hk with e | hmem
    · subst e
      have h3 : key_row_num behind pfx k ≤ max_row_step behind pfx m k := by rw [h1]; exact le_max_right _ _
      exact le_trans h3 (foldl_step_ge behind pfx ks _ (le_trans hm h2))
    · exact ih _ (le_trans hm h2) hmem

theorem foldl_step_attained (behind : Behind) (pfx : Bytes) (ks : List Bytes) (m : Int) (hm : -1 ≤ m) :
    ks.foldl (max_row_step behind pfx) m = m ∨
      ∃ k ∈ ks, key_row_num behind pfx k = ks.foldl (max_row_step behind pfx) m := by
  induction ks generalizing m with
  | nil => simp
  | cons k1 ks ih =>
    simp only [List.foldl_cons]
    have h1 : max_row_step behind pfx m k1 = max m (key_row_num behind pfx k1) := max_row_step_eq behind pfx k1 m hm
    have h2 : m ≤ max_row_step behind pfx m k1 := by rw [h1]; exact le_max_left _ _
    rcases ih (max_row_step behind pfx m k1) (le_trans hm h2) with e | ⟨k, hk, e⟩
    · rw [e]
      rcases max_choice m (key_row_num behind pfx k1) with c | c
      · left; rw [h1, c]
      · right
        exact ⟨k1, List.mem_cons_self _ _, by rw [h1, c]⟩
    · right
      exact ⟨k, List.mem_cons_of_mem _ hk, e⟩

/-- The seek of `get_max_row_num` skips no key that counts: the loop over the whole
store gives the same result. -/
theorem foldl_step_seek (behind : Behind) (pfx : Bytes) (db : Store) (m : Int) (hm : -1 ≤ m) :
    (rocksdb_iter_seek db pfx).foldl (fun max_row_num kv => max_row_step behind pfx max_row_num kv.1) m
      = db.foldl (fun max_row_num kv => max_row_step behind pfx max_row_num kv.1) m := by
  induction db with
  | nil => rfl
  | cons kv rest ih =>
    unfold rocksdb_iter_seek at ih ⊢
    by_cases h : bytewise_lt kv.1 pfx = true
    · rw [List.dropWhile_cons_of_pos (by simpa using h), ih]
      simp only [List.foldl_cons]
      have : max_row_step behind pfx m kv.1 = m := by
        rw [max_row_step_eq behind pfx kv.1 m hm, key_row_num_of_lt behind pfx kv.1 h]
        exact max_eq_left hm
      rw [this]
    · rw [List.dropWhile_cons_of_neg (by simpa using h)]

theorem get_max_row_num_eq (behind : Behind) (db : Store) (table_name : Bytes) :
    get_max_row_num behind db table_name
      = (store_keys db).foldl (max_row_step behind (row_pfx table_name)) (-1) := by
  unfold get_max_row_num
  rw [foldl_step_seek behind _ _ _ (le_refl _), foldl_step_eq_keys]

theorem get_max_row_num_ge (behind : Behind) (db : Store) (table_name : Bytes) :
    -1 ≤ get_max_row_num behind db table_name := by
  rw [get_max_row_num_eq]
  exact foldl_step_ge behind _ _ _ (le_refl _)

theorem key_row_num_le_max (behind : Behind) (db : Store) (table_name k : Bytes) (hk : k ∈ store_keys db) :
    key_row_num behind (row_pfx table_name) k ≤ get_max_row_num behind db table_name := by
  rw [get_max_row_num_eq]
  exact foldl_step_upper behind _ _ _ (le_refl _) k hk

theorem get_max_row_num_attained (behind : Behind) (db : Store) (table_name : Bytes) :
    get_max_row_num behind db table_name = -1 ∨
      ∃ k ∈ store_keys db, key_row_num behind (row_pfx table_name) k = get_max_row_num behind db table_name := by
  rw [get_max_row_num_eq]
  exact foldl_step_attained behind _ _ _ (le_refl _)

/-- The maximum after a put: the old maximum, or the row number of the key written. -/
theorem get_max_row_num_put (behind : Behind) (db : Store) (table_name key val : Bytes) :
    get_max_row_num behind (rocksdb_put db key val) table_name
      = max (get_max_row_num behind db table_name) (key_row_num behind (row_pfx table_name) key) := by
  apply le_antisymm
  · rcases get_max_row_num_attained behind (rocksdb_put db key val) table_name with e | ⟨k, hk, e⟩
    · rw [e]
      exact le_trans (get_max_row_num_ge behind db table_name) (le_max_left _ _)
    · rw [← e]
      rcases (mem_store_keys_put db key val k).mp hk with rfl | hmem
      · exact le_max_right _ _
      · exact le_trans (key_row_num_le_max behind db table_name k hmem) (le_max_left _ _)
  · apply max_le
    · rcases get_max_row_num_attained behind db table_name with e | ⟨k, hk, e⟩
      · rw [e]
        exact get_max_row_num_ge behind _ _
      · rw [← e]
        exact key_row_num_le_max behind _ _ _ ((mem_store_keys_put db key val k).mpr (Or.inr hk))
    · exact key_row_num_le_max behind _ _ _ ((mem_store_keys_put db key val key).mpr (Or.inl rfl))

theorem row_key_eq (table_name : Bytes) (row : Nat) :
    row_key table_name row = row_pfx table_name ++ fmt_zu row := by
  simp [row_key, row_pfx]

/-- The row number read back from a key that `add_row` wrote for the same table. -/
theorem key_row_num_row_key (behind : Behind) (hterm : terminated behind)
    (table_name : Bytes) (row : Nat) (h : row < 2 ^ 31) :
    key_row_num behind (row_pfx table_name) (row_key table_name row) = row := by
  have hlen : 0 < (fmt_zu row).length := List.length_pos.mpr (fmt_zu_ne_nil row)
  unfold key_row_num max_row_step
  rw [row_key_eq]
  have c1 : (row_pfx table_name ++ fmt_zu row).length > (row_pfx table_name).length := by
    rw [List.length_append]; omega
  have c2 : (row_pfx table_name ++ fmt_zu row).take (row_pfx table_name).length
      = row_pfx table_name := by simp
  have c3 : (row_pfx table_name ++ fmt_zu row).drop (row_pfx table_name).length
      = fmt_zu row := by simp
  rw [if_pos ⟨c1, c2⟩, c3, sscanf_d_fmt_zu row h _ (hterm _)]
  simp only
  split_ifs <;> omega

/-! ## Row keys -/

/-- Two lists cut at a '#' agree when the parts after the cut hold no '#'. -/
theorem append_hash_cancel (a c b d : Bytes) (hb : '#' ∉ b) (hd : '#' ∉ d)
    (h : a ++ '#' :: b = c ++ '#' :: d) : a = c ∧ b = d := by
  rcases List.append_eq_append_iff.mp h with ⟨a1, hc, hb1⟩ | ⟨c1, ha, hd1⟩
  · cases a1 with
    | nil =>
      simp only [List.append_nil, List.nil_append, List.cons.injEq, true_and] at hc hb1
      exact ⟨hc.symm, hb1⟩
    | cons x a2 =>
      simp only [List.cons_append, List.cons.injEq] at hb1
      exact absurd (by rw [hb1.2]; simp) hb
  · cases c1 with
    | nil =>
      simp only [List.append_nil, List.nil_append, List.cons.injEq, true_and] at ha hd1
      exact ⟨ha, hd1.symm⟩
    | cons x c2 =>
      simp only [List.cons_append, List.cons.injEq] at hd1
      exact absurd (by rw [hd1.2]; simp) hd

theorem row_key_injective (t1 t2 : Bytes) (i j : Nat) (h : row_key t1 i = row_key t2 j) :
    t1 = t2 ∧ i = j := by
  obtain ⟨h1, h2⟩ := append_hash_cancel t1 t2 (fmt_zu i) (fmt_zu j)
    (hash_not_mem_fmt_zu i) (hash_not_mem_fmt_zu j) h
  exact ⟨h1, fmt_zu_injective i j h2⟩

/-- A key without '#' is a row key of no table. -/
theorem key_row_num_no_hash (behind : Behind) (t key : Bytes) (h : '#' ∉ key) :
    key_row_num behind (row_pfx t) key = -1 := by
  unfold key_row_num max_row_step
  have : ¬ (key.length > (row_pfx t).length ∧ key.take (row_pfx t).length = row_pfx t) := by
    rintro ⟨_, h2⟩
    have hm : '#' ∈ key.take (row_pfx t).length := by rw [h2]; simp [row_pfx]
    exact h (List.mem_of_mem_take hm)
  simp [this]

theorem row_key_lt_of_lt : ∀ (t1 t2 : Bytes) (i j : Nat), above_hash t2 →
    bytewise_lt t1 t2 = true → bytewise_lt (row_key t1 i) (row_key t2 j) = true
  | [], [], _, _, _, h => by simp [bytewise_lt] at h
  | [], y :: ys, i, j, h2, _ => by
    have hy : '#' < y := h2 y (List.mem_cons_self _ _)
    simp [row_key, bytewise_lt, hy]
  | _ :: _, [], _, _, _, h => by simp [bytewise_lt] at h
  | x :: xs, y :: ys, i, j, h2, h => by
    have h2t : above_hash ys := fun c hc => h2 c (List.mem_cons_of_mem _ hc)
    simp only [bytewise_lt] at h
    simp only [row_key, List.cons_append, bytewise_lt]
    by_cases hxy : x < y
    · simp [hxy]
    · by_cases hyx : y < x
      · simp [hxy, hyx] at h
      · simp only [hxy, hyx, if_false] at h ⊢
        exact row_key_lt_of_lt xs ys i j h2t h

/-! ## The catalog -/

theorem takeWhile_terminated (l : Bytes) (h : NUL ∉ l) :
    (l ++ [NUL]).takeWhile (fun c => c ≠ NUL) = l := by
  induction l with
  | nil => simp [List.takeWhile]
  | cons x xs ih =>
    have hx : x ≠ NUL := fun e => h (by rw [e]; exact List.mem_cons_self _ _)
    have hxs : NUL ∉ xs := fun m => h (List.mem_cons_of_mem _ m)
    rw [List.cons_append, List.takeWhile_cons_of_pos (by simpa using hx), ih hxs]

theorem c_str_terminated (l : Bytes) (h : NUL ∉ l) : c_str (l ++ [NUL]) = some l := by
  have h1 : NUL ∈ l ++ [NUL] := by simp
  simp only [c_str, h1, if_true, takeWhile_terminated l h]

theorem set_new_filelocator_of_listing (db : Store) (l name : Bytes)
    (h : tables_listing db = some l) :
    memam_relation_set_new_filelocator db name = some (set_tables db (l ++ [','] ++ name)) := by
  unfold tables_listing at h
  unfold memam_relation_set_new_filelocator
  cases hg : get_tables db with
  | none => rw [hg] at h; simp at h
  | some buf =>
    rw [hg] at h
    simp only at h ⊢
    rw [h]

theorem NUL_ne_comma : NUL ≠ ',' := by decide

theorem tables_listing_of_get (db : Store) (l : Bytes) (hnul : NUL ∉ l)
    (hget : get_tables db = some (l ++ [NUL])) : tables_listing db = some l := by
  simp only [tables_listing, hget]
  exact c_str_terminated l hnul

theorem get_tables_set_tables (db : Store) (l : Bytes) :
    get_tables (set_tables db l) = some (l ++ [NUL]) := by
  simp [get_tables, set_tables, rocksdb_get_put_same]

/-- The creation callback run over a list of names: it succeeds, the other keys keep
their values, and the catalog value is the old listing with ',' and the name appended
for each name, followed by the terminator. -/
theorem create_tables_spec (names : List Bytes) (db : Store) (l : Bytes)
    (hget : get_tables db = some (l ++ [NUL])) (hnul : NUL ∉ l)
    (hnames : ∀ n ∈ names, NUL ∉ n) :
    ∃ db1, create_tables db names = some db1 ∧
      get_tables db1 = some (appended_listing l names ++ [NUL]) ∧
      NUL ∉ appended_listing l names ∧
      (∀ k, k ≠ TABLES_KEY → rocksdb_get db1 k = rocksdb_get db k) := by
  induction names generalizing db l with
  | nil => exact ⟨db, rfl, hget, hnul, fun _ _ => rfl⟩
  | cons n ns ih =>
    have hn : NUL ∉ n := hnames n (List.mem_cons_self _ _)
    have hl1 : NUL ∉ l ++ [','] ++ n := by
      simp only [List.mem_append, List.mem_singleton, not_or]
      exact ⟨⟨hnul, NUL_ne_comma⟩, hn⟩
    obtain ⟨db1, h1, h2, h3, h5⟩ := ih (set_tables db (l ++ [','] ++ n)) (l ++ [','] ++ n)
      (get_tables_set_tables db _) hl1 (fun m hm => hnames m (List.mem_cons_of_mem _ hm))
    refine ⟨db1, ?_, h2, h3, ?_⟩
    · simp only [create_tables,
        set_new_filelocator_of_listing db l n (tables_listing_of_get db l hnul hget)]
      exact h1
    · intro k hk
      rw [h5 k hk]
      exact rocksdb_get_put_other db TABLES_KEY _ k hk

/-! ## Comma-separated listings -/

theorem split_commas_ne_nil (l : Bytes) : split_commas l ≠ [] := by
  cases l with
  | nil => simp [split_commas]
  | cons c cs =>
    simp only [split_commas]
    split_ifs
    · simp
    · cases split_commas cs <;> simp

theorem split_commas_of_not_mem (l : Bytes) (h : ',' ∉ l) : split_commas l = [l] := by
  induction l with
  | nil => rfl
  | cons c cs ih =>
    have hc : c ≠ ',' := fun e => h (by rw [e]; exact List.mem_cons_self _ _)
    have hcs : ',' ∉ cs := fun m => h (List.mem_cons_of_mem _ m)
    simp [split_commas, hc, ih hcs]

theorem split_commas_cons_entry (e rest : Bytes) (h : ',' ∉ e) :
    split_commas (e ++ ',' :: rest) = e :: split_commas rest := by
  induction e with
  | nil => simp [split_commas]
  | cons c cs ih =>
    have hc : c ≠ ',' := fun e => h (by rw [e]; exact List.mem_cons_self _ _)
    have hcs : ',' ∉ cs := fun m => h (List.mem_cons_of_mem _ m)
    simp [split_commas, hc, ih hcs]

theorem split_commas_append_entry (l e : Bytes) (h : ',' ∉ e) :
    split_commas (l ++ ',' :: e) = split_commas l ++ [e] := by
  induction l with
  | nil => simp [split_commas, split_commas_of_not_mem e h]
  | cons c cs ih =>
    simp only [List.cons_append, split_commas, List.append_eq]
    rw [ih]
    split_ifs
    · simp
    · cases hs : split_commas cs with
      | nil => exact absurd hs (split_commas_ne_nil cs)
      | cons x xs => simp

theorem split_commas_appended_listing (names : List Bytes) (l : Bytes)
    (h : ∀ n ∈ names, ',' ∉ n) :
    split_commas (appended_listing l names) = split_commas l ++ names := by
  induction names generalizing l with
  | nil => simp [appended_listing]
  | cons n ns ih =>
    have hn : ',' ∉ n := h n (List.mem_cons_self _ _)
    have := ih (l ++ [','] ++ n) (fun m hm => h m (List.mem_cons_of_mem _ hm))
    simp only [appended_listing, List.foldl_cons] at this ⊢
    rw [this]
    simp only [List.append_assoc, List.singleton_append]
    rw [split_commas_append_entry l n hn]
    simp

/-! ## The row encoding -/

theorem comma_not_mem_attr_text (slot : List (Option Bytes)) (h : encodable slot)
    (v : Option Bytes) (hv : v ∈ slot) : ',' ∉ attr_text v := by
  cases v with
  | none => simp only [attr_text]; decide
  | some valStr => exact (h valStr hv).1

theorem attr_text_injective (slot1 slot2 : List (Option Bytes)) (h1 : encodable slot1)
    (h2 : encodable slot2) (v w : Option Bytes) (hv : v ∈ slot1) (hw : w ∈ slot2)
    (h : attr_text v = attr_text w) : v = w := by
  cases v with
  | none =>
    cases w with
    | none => rfl
    | some b => exact absurd h.symm (h2 b hw).2
  | some a =>
    cases w with
    | none => exact absurd h (h1 a hv).2
    | some b => exact congrArg some h

theorem encodable_tail (v : Option Bytes) (slot : List (Option Bytes))
    (h : encodable (v :: slot)) : encodable slot :=
  fun valStr hm => h valStr (List.mem_cons_of_mem _ hm)

/-- The entries of the encoding of a tuple with at least one attribute are the texts
of its attributes. -/
theorem split_commas_tuple_str : ∀ (slot : List (Option Bytes)), slot ≠ [] → encodable slot →
    split_commas (tuple_str slot) = slot.map attr_text
  | [], h, _ => absurd rfl h
  | [v], _, he => by
    simp only [tuple_str, List.map_cons, List.map_nil]
    exact split_commas_of_not_mem _ (comma_not_mem_attr_text [v] he v (List.mem_cons_self _ _))
  | v :: w :: rest, _, he => by
    simp only [tuple_str, List.map_cons]
    rw [split_commas_cons_entry _ _
      (comma_not_mem_attr_text _ he v (List.mem_cons_self _ _)),
      split_commas_tuple_str (w :: rest) (by simp) (encodable_tail v _ he)]
    simp

theorem map_attr_text_injective : ∀ (slot1 slot2 : List (Option Bytes)), encodable slot1 →
    encodable slot2 → slot1.map attr_text = slot2.map attr_text → slot1 = slot2
  | [], [], _, _, _ => rfl
  | [], _ :: _, _, _, h => by simp at h
  | _ :: _, [], _, _, h => by simp at h
  | v :: vs, w :: ws, h1, h2, h => by
    simp only [List.map_cons, List.cons.injEq] at h
    have e1 : v = w := attr_text_injective _ _ h1 h2 v w (List.mem_cons_self _ _)
      (List.mem_cons_self _ _) h.1
    have e2 : vs = ws := map_attr_text_injective vs ws (encodable_tail v vs h1)
      (encodable_tail w ws h2) h.2
    rw [e1, e2]

/-! ## The next row number -/

theorem to_int_lt (n : Int) : to_int n < 2 ^ 31 := by
  have e2 : ((2 : Int) ^ 31) = 2147483648 := by norm_num
  have e3 : ((2 : Int) ^ 32) = 4294967296 := by norm_num
  simp only [to_int, e2, e3]
  omega

theorem sscanf_d_lt (s : Bytes) (v : Int) (h : sscanf_d s = some v) : v < 2 ^ 31 := by
  unfold sscanf_d at h
  simp only at h
  split_ifs at h <;>
  · simp only [Option.some.injEq] at h
    rw [← h]
    exact to_int_lt _

theorem key_row_num_lt (behind : Behind) (pfx key : Bytes) : key_row_num behind pfx key < 2 ^ 31 := by
  unfold key_row_num max_row_step
  split_ifs with h
  · cases hs : sscanf_d (key.drop pfx.length ++ behind key) with
    | none => simp
    | some cur =>
      have := sscanf_d_lt _ _ hs
      simp only
      split_ifs
      · exact this
      · norm_num
  · norm_num

theorem get_max_row_num_lt (behind : Behind) (db : Store) (table_name : Bytes) :
    get_max_row_num behind db table_name < 2 ^ 31 := by
  rcases get_max_row_num_attained behind db table_name with e | ⟨k, _, e⟩
  · rw [e]; norm_num
  · rw [← e]; exact key_row_num_lt behind _ _

/-- The value of `current_max_row_num+1` as a `size_t`: one more than the maximum, or
`2 ^ 64 - 2 ^ 31` when the `int` addition wraps. -/
theorem next_row_num_cases (behind : Behind) (db : Store) (table_name : Bytes) :
    ((next_row_num behind db table_name : Nat) : Int) = get_max_row_num behind db table_name + 1 ∨
      next_row_num behind db table_name = 2 ^ 64 - 2 ^ 31 := by
  have h1 := get_max_row_num_ge behind db table_name
  have h2 := get_max_row_num_lt behind db table_name
  have e2 : ((2 : Int) ^ 31) = 2147483648 := by norm_num
  have e3 : ((2 : Int) ^ 32) = 4294967296 := by norm_num
  have e4 : ((2 : Int) ^ 64) = 18446744073709551616 := by norm_num
  have e5 : (2 : Nat) ^ 64 - 2 ^ 31 = 18446744071562067968 := by norm_num
  rw [e2] at h2
  simp only [next_row_num, to_size_t, to_int, e2, e3, e4, e5]
  generalize get_max_row_num behind db table_name = m at h1 h2 ⊢
  omega

theorem row_key_num_le_max (behind : Behind) (hterm : terminated behind) (db : Store)
    (table_name : Bytes) (i : Nat) (hi : i < 2 ^ 31)
    (hmem : row_key table_name i ∈ store_keys db) :
    (i : Int) ≤ get_max_row_num behind db table_name := by
  have := key_row_num_le_max behind db table_name _ hmem
  rwa [key_row_num_row_key behind hterm table_name i hi] at this

/-- Were every key slice terminated: when the ids of the row keys of a table fit an
`int` and the maximum read is below the `int` maximum, the id that the insert path
computes is above the id of every row key of the table, its key is not in the store,
and a put under that key leaves every entry of the store as it was. -/
theorem next_row_num_unused_of_terminated (behind : Behind) (hterm : terminated behind)
    (db : Store) (table_name : Bytes)
    (hrows : ∀ i, row_key table_name i ∈ store_keys db → i < 2 ^ 31)
    (hmax : get_max_row_num behind db table_name < 2 ^ 31 - 1) :
    (∀ i, row_key table_name i ∈ store_keys db → i < next_row_num behind db table_name) ∧
      row_key table_name (next_row_num behind db table_name) ∉ store_keys db ∧
      (∀ data db1,
        add_row db table_name (next_row_num behind db table_name) (some data) = some db1 →
        ∀ k v, rocksdb_get db k = some v → rocksdb_get db1 k = some v) := by
  have e1 : (2 : Nat) ^ 31 = 2147483648 := by norm_num
  have e2 : ((2 : Int) ^ 31) = 2147483648 := by norm_num
  have e3 : ((2 : Int) ^ 32) = 4294967296 := by norm_num
  have e4 : ((2 : Int) ^ 64) = 18446744073709551616 := by norm_num
  have h1 := get_max_row_num_ge behind db table_name
  rw [e2] at hmax
  have hnext : ((next_row_num behind db table_name : Nat) : Int)
      = get_max_row_num behind db table_name + 1 := by
    simp only [next_row_num, to_size_t, to_int, e2, e3, e4]
    generalize get_max_row_num behind db table_name = m at h1 hmax ⊢
    omega
  have hle : ∀ i, row_key table_name i ∈ store_keys db →
      (i : Int) ≤ get_max_row_num behind db table_name :=
    fun i hi => row_key_num_le_max behind hterm db table_name i (hrows i hi) hi
  have hfresh : row_key table_name (next_row_num behind db table_name) ∉ store_keys db := by
    intro hmem
    have := hle _ hmem
    omega
  refine ⟨?_, hfresh, ?_⟩
  · intro i hi
    have := hle i hi
    omega
  · intro data db1 hadd k v hget
    simp only [add_row, Option.some.injEq] at hadd
    subst hadd
    have hk : k ≠ row_key table_name (next_row_num behind db table_name) := by
      intro e
      rw [e] at hget
      exact hfresh (mem_store_keys_of_get db _ v hget)
    rw [rocksdb_get_put_other db _ data k hk]
    exact hget

/-- Were every key slice terminated and `add_row` given data: from a store in which the
maximum of a table is `m`, after the rows of a list were written under the ids the
insert path computes, the maximum is `m` plus the number of rows (below the `int`
maximum). -/
theorem add_rows_max (behind : Behind) (hterm : terminated behind) (datas : List Bytes)
    (db : Store) (table_name : Bytes) (m : Int)
    (hm : get_max_row_num behind db table_name = m) (hlen : m + datas.length < 2 ^ 31) :
    ∃ db1, add_rows behind db table_name datas = some db1 ∧
      get_max_row_num behind db1 table_name = m + datas.length := by
  induction datas generalizing db m with
  | nil => exact ⟨db, rfl, by simpa using hm⟩
  | cons d ds ih =>
    have h1 := get_max_row_num_ge behind db table_name
    have e2 : ((2 : Int) ^ 31) = 2147483648 := by norm_num
    have e1 : (2 : Nat) ^ 31 = 2147483648 := by norm_num
    simp only [List.length_cons, Nat.cast_add, Nat.cast_one, e2] at hlen
    have hnext : ((next_row_num behind db table_name : Nat) : Int) = m + 1 := by
      have e3 : ((2 : Int) ^ 32) = 4294967296 := by norm_num
      have e4 : ((2 : Int) ^ 64) = 18446744073709551616 := by norm_num
      simp only [next_row_num, to_size_t, to_int, e2, e3, e4, hm]
      rw [hm] at h1
      omega
    have hlt : next_row_num behind db table_name < 2 ^ 31 := by
      rw [e1]; omega
    have hput : get_max_row_num behind
        (rocksdb_put db (row_key table_name (next_row_num behind db table_name)) d) table_name
        = m + 1 := by
      rw [get_max_row_num_put, key_row_num_row_key behind hterm table_name _ hlt, hm, hnext]
      exact max_eq_right (by omega)
    obtain ⟨db1, h3, h4⟩ := ih _ (m + 1) hput (by rw [e2]; omega)
    refine ⟨db1, ?_, ?_⟩
    · simp only [add_rows, add_row]
      exact h3
    · rw [h4]
      simp only [List.length_cons, Nat.cast_add, Nat.cast_one]
      omega

theorem terminated_no_overread : terminated no_overread := by
  intro key c hc
  simp [no_overread] at hc

theorem sample_store_rows (i : Nat) (h : row_key orders i ∈ store_keys sample_store) :
    i < 2 ^ 31 := by
  simp only [sample_store, store_keys, List.map_cons, List.map_nil, List.mem_cons,
    List.mem_singleton, List.not_mem_nil, or_false] at h
  rcases h with h | h | h
  · rw [(row_key_injective _ _ _ _ h).2]; norm_num
  · rw [(row_key_injective _ _ _ _ h).2]; norm_num
  · exfalso
    have hm : '#' ∈ row_key orders i := by simp [row_key]
    rw [h] at hm
    revert hm
    decide

/-- The lemma `next_row_num_unused_of_terminated` at a store with the rows 0 and 1 of
`orders`: the id computed is 2. -/
theorem next_row_num_sample :
    next_row_num no_overread sample_store orders = 2 ∧
      (∀ i, row_key orders i ∈ store_keys sample_store →
        i < next_row_num no_overread sample_store orders) ∧
      row_key orders (next_row_num no_overread sample_store orders) ∉ store_keys sample_store :=
  ⟨by decide,
    (next_row_num_unused_of_terminated no_overread terminated_no_overread sample_store orders
      sample_store_rows (by decide)).1,
    (next_row_num_unused_of_terminated no_overread terminated_no_overread sample_store orders
      sample_store_rows (by decide)).2.1⟩

/-- The key of row 0 of the table `a#5` counts as row 5 of the table `a`, whatever lies
behind its slice: the conversion ends at the '#' inside the key. -/
theorem key_row_num_a5 (behind : Behind) :
    key_row_num behind (row_pfx ['a']) (row_key ['a', '#', '5'] 0) = 5 := by
  have hkey : row_key ['a', '#', '5'] 0 = ['a', '#', '5', '#', '0'] := by decide
  have hp : row_pfx ['a'] = ['a', '#'] := rfl
  have hs : sscanf_d (['5'] ++ ('#' :: '0' :: behind ['a', '#', '5', '#', '0'])) = some 5 := by
    rw [sscanf_d_digits_then ['5'] _ (by simp) (by decide)
      (by intro c hc; simp only [List.head?_cons, Option.mem_def, Option.some.injEq] at hc
          subst hc; decide)]
    decide
  unfold key_row_num max_row_step
  rw [hkey, hp]
  simp only [List.length_cons, List.length_nil, List.take, List.drop]
  simp only [List.cons_append, List.nil_append] at hs ⊢
  rw [hs]
  decide

/-- After row 0 of the table `a#5` is written into an empty store, `get_max_row_num` of
the table `a` is 5, whatever lies behind the key slices. -/
theorem get_max_row_num_a5 (behind : Behind) (data : Bytes) :
    get_max_row_num behind (rocksdb_put [] (row_key ['a', '#', '5'] 0) data) ['a'] = 5 := by
  rw [get_max_row_num_put, key_row_num_a5]
  have : get_max_row_num behind [] ['a'] = -1 := rfl
  rw [this]
  decide

/-! ## The handler and the fresh store -/

/-- The handler stops at its first statement, before the store is opened and before
`set_tables("")`: no call of it initialises the catalog. -/
theorem mem_tableam_handler_stops (database : Option Store) (disk : Store) :
    mem_tableam_handler database disk = none :=
  rfl

theorem fresh_store_eq : fresh_store = [(TABLES_KEY, [NUL])] := rfl

theorem set_tables_singleton (val l : Bytes) :
    set_tables [(TABLES_KEY, val)] l = [(TABLES_KEY, l ++ [NUL])] := by
  simp [set_tables, rocksdb_put, bytewise_lt_irrefl]

theorem appended_listing_eq (names : List Bytes) (l : Bytes) :
    appended_listing l names = l ++ listing_of names := by
  induction names generalizing l with
  | nil => simp [appended_listing, listing_of]
  | cons n ns ih =>
    have := ih (l ++ [','] ++ n)
    simp only [appended_listing, List.foldl_cons] at this ⊢
    rw [this]
    simp [listing_of]

/-- On a store that holds the catalog key only, the creation callback run over a list
of names leaves the catalog key only, with every name appended after a ','. -/
theorem create_tables_singleton (names : List Bytes) (l : Bytes) (hl : NUL ∉ l)
    (hnames : ∀ n ∈ names, NUL ∉ n) :
    create_tables [(TABLES_KEY, l ++ [NUL])] names
      = some [(TABLES_KEY, l ++ listing_of names ++ [NUL])] := by
  induction names generalizing l with
  | nil => simp [create_tables, listing_of]
  | cons n ns ih =>
    have hn : NUL ∉ n := hnames n (List.mem_cons_self _ _)
    have hl1 : NUL ∉ l ++ [','] ++ n := by
      simp only [List.mem_append, List.mem_singleton, not_or]
      exact ⟨⟨hl, NUL_ne_comma⟩, hn⟩
    have hget : get_tables [(TABLES_KEY, l ++ [NUL])] = some (l ++ [NUL]) := by
      simp [get_tables, rocksdb_get]
    simp only [create_tables, set_new_filelocator_of_listing _ l n
      (tables_listing_of_get _ l hl hget), set_tables_singleton]
    rw [ih (l ++ [','] ++ n) hl1 (fun m hm => hnames m (List.mem_cons_of_mem _ hm))]
    simp [listing_of]

theorem split_commas_listing_of (names : List Bytes) (h : ∀ n ∈ names, ',' ∉ n) :
    split_commas (listing_of names) = [] :: names := by
  have := split_commas_appended_listing names [] h
  rw [appended_listing_eq] at this
  simpa [split_commas] using this

/-! ## The catalog listing (C1, C2) -/

/-- C1, as the claim states it, fails: after the creation callback ran twice for the
table `t` on a catalog that holds the empty listing, the listing is `,t,t` and holds
`t` twice. -/
theorem catalog_lists_twice :
    (create_tables fresh_store [['t'], ['t']]).bind tables_listing
        = some [',', 't', ',', 't'] ∧
      (split_commas [',', 't', ',', 't']).count ['t'] = 2 ∧
      (split_commas [',', 't', ',', 't']).count ['t'] ≠ 1 := by
  decide

/-- C1, amended: on a store whose catalog value is a listing `l` with its terminator
(an initialised catalog; `l` is empty on a fresh one), after the creation callback ran
for the names of a list in order (names without ',' and NUL), every run has succeeded
and the listing read back from `get_tables` holds a name `t` as many times more than
`l` did as the callback ran for `t`: from the empty listing a non-empty `t` is held
exactly k times after k runs, once only when k = 1. -/
theorem catalog_lists_each_creation (db : Store) (l : Bytes) (names : List Bytes) (t : Bytes)
    (hget : get_tables db = some (l ++ [NUL])) (hl : NUL ∉ l)
    (hnames : ∀ n ∈ names, listable n) :
    ∃ db1 l1, create_tables db names = some db1 ∧ tables_listing db1 = some l1 ∧
      (split_commas l1).count t = (split_commas l).count t + names.count t ∧
      (l = [] → t ≠ [] → (split_commas l1).count t = names.count t) := by
  obtain ⟨db1, h1, h2, h3, _⟩ := create_tables_spec names db l hget hl
    (fun n hn => (hnames n hn).2)
  have hsplit := split_commas_appended_listing names l (fun n hn => (hnames n hn).1)
  refine ⟨db1, appended_listing l names, h1, tables_listing_of_get db1 _ h3 h2, ?_, ?_⟩
  · rw [hsplit, List.count_append]
  · intro hle ht
    rw [hsplit, List.count_append, hle]
    simp only [split_commas]
    rw [List.count_cons_of_ne (fun e => ht e), List.count_nil, Nat.zero_add]

theorem listable_orders : listable orders := by
  unfold listable orders; decide

theorem listable_users : listable users := by
  unfold listable users; decide

theorem catalog_lists_each_creation_witness :
    get_tables fresh_store = some ([] ++ [NUL]) ∧
      ∃ db1 l1, create_tables fresh_store [orders, users, orders] = some db1 ∧
        tables_listing db1 = some l1 ∧
        (split_commas l1).count orders
          = (split_commas []).count orders + [orders, users, orders].count orders ∧
        (([] : Bytes) = [] → orders ≠ [] →
          (split_commas l1).count orders = [orders, users, orders].count orders) :=
  ⟨rfl, catalog_lists_each_creation fresh_store [] [orders, users, orders] orders rfl
    (by simp)
    (by
      intro n hn
      simp only [List.mem_cons, List.mem_singleton, List.not_mem_nil, or_false] at hn
      rcases hn with rfl | rfl | rfl
      · exact listable_orders
      · exact listable_users
      · exact listable_orders)⟩

/-- C2, as the claim states it, fails: on a fresh store, after `orders` was created the
value under `tables` is `,orders` followed by a NUL byte, not `orders`. -/
theorem catalog_value_orders :
    (create_tables fresh_store [orders]).bind get_tables
        = some ([',', 'o', 'r', 'd', 'e', 'r', 's'] ++ [NUL]) ∧
      (create_tables fresh_store [orders]).bind get_tables ≠ some orders := by
  decide

/-- C2, amended: on a fresh store (the catalog key only, holding the empty listing),
after the tables of a list of names without ',' and NUL were created in order, the
store still holds the catalog key only and the value under `tables` is exactly: for
each created name in creation order a ',' and the name, then one NUL byte. Split at
',' that listing is one empty entry followed by the created names in creation order. -/
theorem catalog_value_after_create (names : List Bytes)
    (hnames : ∀ n ∈ names, listable n) :
    create_tables fresh_store names = some [(TABLES_KEY, listing_of names ++ [NUL])] ∧
      (create_tables fresh_store names).bind (fun db => rocksdb_get db TABLES_KEY)
        = some (listing_of names ++ [NUL]) ∧
      split_commas (listing_of names) = [] :: names := by
  have h : create_tables fresh_store names
      = some [(TABLES_KEY, listing_of names ++ [NUL])] := by
    have := create_tables_singleton names [] (by simp) (fun n hn => (hnames n hn).2)
    simpa [fresh_store_eq] using this
  refine ⟨h, ?_, split_commas_listing_of names (fun n hn => (hnames n hn).1)⟩
  rw [h]
  simp [rocksdb_get]

theorem catalog_value_after_create_witness :
    listing_of [orders, users]
        = [',', 'o', 'r', 'd', 'e', 'r', 's', ',', 'u', 's', 'e', 'r', 's'] ∧
      (create_tables fresh_store [orders, users]
        = some [(TABLES_KEY, listing_of [orders, users] ++ [NUL])] ∧
      (create_tables fresh_store [orders, users]).bind (fun db => rocksdb_get db TABLES_KEY)
        = some (listing_of [orders, users] ++ [NUL]) ∧
      split_commas (listing_of [orders, users]) = [] :: [orders, users]) :=
  ⟨by decide, catalog_value_after_create [orders, users]
    (by
      intro n hn
      simp only [List.mem_cons, List.mem_singleton, List.not_mem_nil, or_false] at hn
      rcases hn with rfl | rfl
      · exact listable_orders
      · exact listable_users)⟩

/-! ## The insert path and the scan (C3, C4, C5) -/

/-- C3, on the code: on a fresh store, for every table, `get_max_row_num` is -1 before
any insert, and the first call of the insert path stops the process in `add_row` (its
`data` is NULL): after N = 1 or more calls there is no state in which the maximum could
be N - 1, for instance 0 after `[42]` was inserted into `orders`. This holds whatever
lies behind the key slices. -/
theorem insert_rows_stops (behind : Behind) (table_name : Bytes) (slot : List (Option Bytes))
    (slots : List (List (Option Bytes))) :
    get_max_row_num behind fresh_store table_name = -1 ∧
      next_row_num behind fresh_store table_name = 0 ∧
      insert_rows behind fresh_store table_name (slot :: slots) = none ∧
      insert_rows behind fresh_store orders [[some ['4', '2']]] = none := by
  have h : get_max_row_num behind fresh_store table_name = -1 := by
    rw [get_max_row_num_eq]
    have hk : key_row_num behind (row_pfx table_name) TABLES_KEY = -1 :=
      key_row_num_no_hash behind table_name TABLES_KEY (by decide)
    simpa [fresh_store, set_tables, rocksdb_put, store_keys, key_row_num] using hk
  refine ⟨h, ?_, rfl, rfl⟩
  unfold next_row_num
  rw [h]
  decide

/-- C4, on the code: for every store, table and tuple, and whatever lies behind the key
slices, `memam_tuple_insert` calls `add_row` with a NULL `data` and stops before the
put: no store results, and the encoded tuple is written under no key. -/
theorem memam_tuple_insert_stops (behind : Behind) (db : Store) (table_name : Bytes)
    (slot : List (Option Bytes)) : memam_tuple_insert behind db table_name slot = none :=
  rfl

/-- C5, on the code: `memam_getnextslot` returns false at its first call, for every
store and every scan state, so a scan produces no row, also over a store that holds
rows of the relation. -/
theorem scan_yields_nothing (db : Store) (relation : Bytes) (fuel : Nat) :
    (∀ mscan, memam_getnextslot db mscan = (false, mscan, none)) ∧
      scan_all db relation fuel = [] ∧ scan_all sample_store orders 2 = [] := by
  refine ⟨fun _ => rfl, ?_, rfl⟩
  cases fuel <;> rfl

/-! ## The row encoding (C6) -/

/-- C6, as the claim states it, fails: the tuple without attributes and the tuple of one
empty text are both in the claim's domain and have the same encoding. -/
theorem tuple_str_empty_collision :
    encodable [] ∧ encodable [some []] ∧ tuple_str [] = tuple_str [some []] ∧
      ([] : List (Option Bytes)) ≠ [some []] := by
  refine ⟨?_, ?_, rfl, by simp⟩
  · intro valStr h
    simp at h
  · intro valStr h
    simp only [List.mem_singleton, Option.some.injEq] at h
    subst h
    decide

/-- C6, amended: two tuples in which no text holds ',' and no text is the literal
`NULL`, and which are both empty or both non-empty (as two tuples of one relation
are), are equal when their encodings are equal. -/
theorem tuple_str_injective (slot1 slot2 : List (Option Bytes)) (h1 : encodable slot1)
    (h2 : encodable slot2) (hne : slot1 = [] ↔ slot2 = [])
    (h : tuple_str slot1 = tuple_str slot2) : slot1 = slot2 := by
  by_cases e : slot1 = []
  · rw [e, hne.mp e]
  · have e2 : slot2 ≠ [] := fun c => e (hne.mpr c)
    apply map_attr_text_injective slot1 slot2 h1 h2
    rw [← split_commas_tuple_str slot1 e h1, ← split_commas_tuple_str slot2 e2 h2, h]

theorem encodable_sample : encodable [some ['4', '2'], none, some []] := by
  intro valStr h
  simp only [List.mem_cons, Option.some.injEq, List.mem_singleton, List.not_mem_nil,
    or_false, reduceCtorEq, false_or] at h
  rcases h with rfl | rfl <;> decide

theorem tuple_str_injective_witness :
    tuple_str [some ['4', '2'], none, some []] = ['4', '2', ',', 'N', 'U', 'L', 'L', ','] ∧
      ([some ['4', '2'], none, some []] : List (Option Bytes))
        = [some ['4', '2'], none, some []] :=
  ⟨rfl, tuple_str_injective _ _ encodable_sample encodable_sample Iff.rfl rfl⟩

/-! ## Row keys (C7, C8) -/

/-- C7: the key that `add_row` builds determines the table name and the row id: equal
keys come from equal names and equal ids, whatever bytes the names hold. -/
theorem row_key_reversible (t1 t2 : Bytes) (i j : Nat)
    (h : row_key t1 i = row_key t2 j) : t1 = t2 ∧ i = j :=
  row_key_injective t1 t2 i j h

theorem row_key_reversible_witness :
    row_key ['a', '#', '1'] 20 = ['a', '#', '1', '#', '2', '0'] ∧
      (['a', '#', '1'] : Bytes) = ['a', '#', '1'] ∧ 20 = 20 :=
  ⟨by decide, row_key_reversible ['a', '#', '1'] ['a', '#', '1'] 20 20 rfl⟩

/-- C8, as the claim states it, fails: the name `a` is below the name `a!`, yet the key
of row 0 of `a!` sorts before the key of row 0 of `a`; and the key of row 5 of the
table `a#1` sorts between the keys of rows 1 and 2 of the table `a`. -/
theorem row_key_order_broken :
    bytewise_lt ['a'] ['a', '!'] = true ∧
      bytewise_lt (row_key ['a'] 0) (row_key ['a', '!'] 0) = false ∧
      bytewise_lt (row_key ['a', '!'] 0) (row_key ['a'] 0) = true ∧
      bytewise_lt (row_key ['a'] 1) (row_key ['a', '#', '1'] 5) = true ∧
      bytewise_lt (row_key ['a', '#', '1'] 5) (row_key ['a'] 2) = true := by
  decide

/-- C8, amended: for two distinct table names all of whose bytes are above '#' (letters,
digits, '_'), when the first name is below the second in bytewise order every key of the
first sorts before every key of the second, and no key of one of the tables sorts
between two keys of the other. -/
theorem row_key_order (t u : Bytes) (ht : above_hash t) (hu : above_hash u) (hne : t ≠ u) :
    (bytewise_lt t u = true → ∀ i j, bytewise_lt (row_key t i) (row_key u j) = true) ∧
      (∀ i j m, ¬ (bytewise_lt (row_key t i) (row_key u m) = true ∧
        bytewise_lt (row_key u m) (row_key t j) = true)) := by
  refine ⟨fun h i j => row_key_lt_of_lt t u i j hu h, ?_⟩
  rintro i j m ⟨h1, h2⟩
  rcases bytewise_lt_total t u hne with h | h
  · have := bytewise_lt_asymm _ _ (row_key_lt_of_lt t u j m hu h)
    rw [this] at h2
    exact Bool.false_ne_true h2
  · have := bytewise_lt_asymm _ _ (row_key_lt_of_lt u t m i ht h)
    rw [this] at h1
    exact Bool.false_ne_true h1

theorem above_hash_orders : above_hash orders := by
  unfold above_hash orders; decide

theorem above_hash_users : above_hash users := by
  unfold above_hash users; decide

theorem row_key_order_witness :
    bytewise_lt orders users = true ∧
      (bytewise_lt orders users = true →
        ∀ i j, bytewise_lt (row_key orders i) (row_key users j) = true) ∧
      (∀ i j m, ¬ (bytewise_lt (row_key orders i) (row_key users m) = true ∧
        bytewise_lt (row_key users m) (row_key orders j) = true)) :=
  ⟨by decide, row_key_order orders users above_hash_orders above_hash_users (by decide)⟩

/-! ## Row id allocation (C9, C10) -/

theorem clash_store_rows (i : Nat) (h : row_key table_t i ∈ store_keys clash_store) :
    i = 0 := by
  simp only [clash_store, store_keys, List.map_cons, List.map_nil, List.mem_cons,
    List.mem_singleton, List.not_mem_nil, or_false] at h
  rcases h with h | h
  · exfalso
    have := (row_key_injective _ _ _ _ h).1
    revert this
    decide
  · exact (row_key_injective _ _ _ _ h).2

/-- C9, on the code: the store holds row 0 of the table `t#!8000000000` and row 0 of the
table `t`, and nothing else; the only row key of `t` is `t#0`. The loop of
`get_max_row_num` for `t` visits the longer key first (no digit follows its prefix), then
`t#0`, whose slice is not terminated: with the rest of the longer key still behind it
in the buffer, `sscanf` reads `08000000000`, which stored in an `int` is negative. The
maximum stays -1, and `memam_tuple_insert` calls `add_row` with the id 0, the id of
the row key `t#0` that is already in the store. (Were the slice terminated the id
would be 1; on the store with the rows 0 and 1 of `orders` it is 2.) -/
theorem insert_reuses_row_id :
    ascending clash_store ∧
      store_keys clash_store = [long_key, row_key table_t 0] ∧
      (∀ i, row_key table_t i ∈ store_keys clash_store → i = 0) ∧
      reused_buffer (row_key table_t 0)
        = ['8', '0', '0', '0', '0', '0', '0', '0', '0', '0', '#', '0'] ∧
      sscanf_d (['0'] ++ reused_buffer (row_key table_t 0)) = some (-589934592) ∧
      get_max_row_num reused_buffer clash_store table_t = -1 ∧
      memam_tuple_insert_call reused_buffer clash_store table_t [some ['4', '2']]
        = (table_t, 0, none) ∧
      row_key table_t 0 ∈ store_keys clash_store ∧
      memam_tuple_insert_call no_overread clash_store table_t [some ['4', '2']]
        = (table_t, 1, none) ∧
      memam_tuple_insert_call no_overread sample_store orders [some ['4', '2']]
        = (orders, 2, none) := by
  have hasc : ascending clash_store := by
    show bytewise_lt long_key (row_key table_t 0) = true ∧ True
    exact ⟨by decide, trivial⟩
  refine ⟨hasc, by decide, clash_store_rows, by decide, by decide, by decide,
    by decide, by decide, by decide, by decide⟩

end PgRocks
